import Mathlib

/-!
Shallow embedding of `src/app.py` (whisky session tracker).

Strings are modelled as lists of characters (`Str`); Python `None`-able
values as `Option`; Python truthiness of strings and numbers as explicit
boolean predicates.  Persistence and network I/O are external
collaborators, so each route's core is embedded as a pure function of
the loaded session list.  Python's stable ascending `list.sort` is
modelled by `List.insertionSort` (a stable sort); a stable sort by a
total preorder key is extensionally unique, so this coincides with the
source's sort on every input.
-/

abbrev Str := List Char

/-- Whitespace characters removed by Python's `str.strip`. -/
def isSpaceB (c : Char) : Bool :=
  c = ' ' || c = '\t' || c = '\n' || c = '\r' || c = '\x0b' || c = '\x0c'

/-- Left part of Python `str.strip`. -/
def lstrip (s : Str) : Str := s.dropWhile isSpaceB

/-- Right part of Python `str.strip`. -/
def rstrip (s : Str) : Str := (s.reverse.dropWhile isSpaceB).reverse

/-- Python `str.strip()`. -/
def strip (s : Str) : Str := rstrip (lstrip s)

/-- ASCII model of Python `str.lower` on one character. -/
def lowerChar (c : Char) : Char :=
  if 'A' ≤ c ∧ c ≤ 'Z' then Char.ofNat (c.toNat + 32) else c

/-- ASCII model of Python `str.lower`. -/
def lower (s : Str) : Str := s.map lowerChar

/-- The `ROMAN` table (app.py line 19). -/
def ROMAN : List Str :=
  ["I", "II", "III", "IV", "V", "VI", "VII", "VIII", "IX", "X", "XI", "XII"].map String.data

/-- The `HOST_ALIASES` table (app.py lines 22-29), including the two dead keys that
end in a trailing space and can never be produced by `strip ∘ lower`. -/
def HOST_ALIASES : List (Str × Str) :=
  [("brass", "Braas"), ("braas", "Braas"), ("willie", "Joess"), ("willie ", "Joess"),
   ("fiddy ", "Fiddy"), ("joess", "Joess")].map (fun p => (p.1.data, p.2.data))

/-- Python `HOST_ALIASES.get(k)` (first matching key; keys are distinct). -/
def aliasGet (k : Str) : Option Str :=
  (HOST_ALIASES.find? (fun p => decide (p.1 = k))).map Prod.snd

/-- Embeds `normalise_host` (app.py 89-92); `none` models Python `None`. -/
def normalise_host : Option Str → Option Str
  | none => none
  | some name =>
    if name = [] then some name
    else some ((aliasGet (lower (strip name))).getD (strip name))

/-- 1-based position of `r` in a list starting at index `i`; `0` when absent. -/
def idxFrom (r : Str) : List Str → Nat → Nat
  | [], _ => 0
  | x :: rest, i => if x = r then i else idxFrom r rest (i + 1)

/-- Embeds `roman_to_int` (app.py 95-96): `ROMAN.index(r) + 1 if r in ROMAN else 0`. -/
def romanToInt (r : Str) : Nat := idxFrom r ROMAN 1

/-- Decimal rendering used by Python `str(n)` for naturals. -/
def natToStr (n : Nat) : Str := Nat.toDigits 10 n

/-- Embeds `int_to_roman` (app.py 99-100). -/
def intToRoman (n : Nat) : Str :=
  if 1 ≤ n ∧ n ≤ ROMAN.length then ROMAN.getD (n - 1) [] else natToStr n

/-- Python `str.split(':')`, accumulator form. -/
def splitColonAux : Str → Str → List Str
  | [], acc => [acc.reverse]
  | c :: rest, acc =>
    if c = ':' then acc.reverse :: splitColonAux rest [] else splitColonAux rest (c :: acc)

/-- Python `sid.split(':')`. -/
def splitColon (s : Str) : List Str := splitColonAux s []

/-- One stored session record (the JSON fields relevant to the core). -/
structure Session where
  id : Option Str := none
  host : Option Str := none
  whisky : Option Str := none
  region : Option Str := none
  rrp : Option Nat := none
  image_url : Option Str := none
  dm_url : Option Str := none
deriving DecidableEq

/-- Python truthiness of an optional string (`None` and `''` are falsy). -/
def optStrTruthy : Option Str → Bool
  | some (_ :: _) => true
  | _ => false

/-- Python truthiness of an optional number (`None` and `0` are falsy). -/
def optNatTruthy : Option Nat → Bool
  | some (_ + 1) => true
  | _ => false

/-- Python truthiness of a plain string. -/
def strTruthy : Str → Bool
  | [] => false
  | _ :: _ => true

/-- The scan filter `s.get('id') and ':' in (s.get('id') or '')` (app.py 118). -/
def isColonTruthy (s : Session) : Bool :=
  optStrTruthy s.id && (s.id.getD []).contains ':'

/-- Successor computation on the chosen last id (app.py 122-133);
`members_per_round = 7`. -/
def nextFromLast (last : Str) : Str :=
  match splitColon last with
  | [r, s] =>
    if romanToInt r = 0 ∨ romanToInt s = 0 then "I:I".data
    else if 7 ≤ romanToInt s then intToRoman (romanToInt r + 1) ++ ":I".data
    else r ++ ":".data ++ intToRoman (romanToInt s + 1)
  | _ => "I:I".data

/-- Embeds `compute_next_id` (app.py 117-133). -/
def computeNextId (sessions : List Session) : Str :=
  match (sessions.filter isColonTruthy).getLast? with
  | none => "I:I".data
  | some t => nextFromLast (t.id.getD [])

/-- Whether a session's id decodes to two fully-valid (non-zero) components. -/
def validStr (sid : Str) : Bool :=
  match splitColon sid with
  | [r, s] => (romanToInt r != 0) && (romanToInt s != 0)
  | _ => false

/-- A session with a fully-valid id. -/
def validId (s : Session) : Bool := validStr (s.id.getD [])

/-- Embeds `sort_key` inside `add_session` (app.py 161-166). -/
def sortKey (s : Session) : Nat × Nat :=
  if (s.id.getD []).contains ':' then
    (romanToInt ((splitColon (s.id.getD [])).getD 0 []),
     romanToInt ((splitColon (s.id.getD [])).getD 1 []))
  else (999, 999)

/-- Ascending lexicographic comparison on sort keys (Python tuple order). -/
def keyLe (a b : Session) : Prop :=
  (sortKey a).1 < (sortKey b).1 ∨ ((sortKey a).1 = (sortKey b).1 ∧ (sortKey a).2 ≤ (sortKey b).2)

instance : DecidableRel keyLe := fun a b => by unfold keyLe; exact inferInstance

instance : IsTotal Session keyLe := ⟨by intro a b; unfold keyLe; omega⟩

instance : IsTrans Session keyLe := ⟨by intro a b c hab hbc; unfold keyLe at hab hbc ⊢; omega⟩

/-- The record as stored by `add_session` (app.py 156-158): host
normalised, id allocated when absent/empty.  The source mutates `host`
before testing `id`; since the host write does not touch `id`, testing
`id` on the untouched record is the same. -/
def prepSession (sessions : List Session) (session : Session) : Session :=
  if optStrTruthy session.id then { session with host := normalise_host session.host }
  else { session with
         host := normalise_host session.host
         id := some (computeNextId sessions) }

/-- Embeds the `add_session` core (app.py 152-169), acting on the loaded session
list; returns the new stored list and the stored record. -/
def addSession (sessions : List Session) (session : Session) : List Session × Session :=
  (List.insertionSort keyLe (sessions ++ [prepSession sessions session]),
   prepSession sessions session)

/-- Typed model of the JSON patch applied with `s.update(updates)`
(app.py 178): a present outer `some` overwrites the field wholesale. -/
structure Patch where
  id : Option (Option Str) := none
  host : Option (Option Str) := none
  whisky : Option (Option Str) := none
  region : Option (Option Str) := none
  rrp : Option (Option Nat) := none
  image_url : Option (Option Str) := none
  dm_url : Option (Option Str) := none
deriving DecidableEq

/-- Embeds `s.update(updates)` restricted to the record schema. -/
def applyPatch (p : Patch) (s : Session) : Session :=
  { id := p.id.getD s.id, host := p.host.getD s.host, whisky := p.whisky.getD s.whisky,
    region := p.region.getD s.region, rrp := p.rrp.getD s.rrp,
    image_url := p.image_url.getD s.image_url, dm_url := p.dm_url.getD s.dm_url }

/-- Embeds the `update_session` core (app.py 172-181): the first record whose id
string-equals the given id is patched; `none` models the 404 path. -/
def updateSession : List Session → Str → Patch → Option (List Session × Session)
  | [], _, _ => none
  | s :: rest, sid, p =>
    if s.id = some sid then
      some (applyPatch p s :: rest, applyPatch p s)
    else
      match updateSession rest sid p with
      | some (rest2, r) => some (s :: rest2, r)
      | none => none

/-- Stored list after the update route: on the 404 path no save happens,
so the stored list is the input. -/
def updateRoute (sessions : List Session) (sid : Str) (p : Patch) : List Session :=
  match updateSession sessions sid p with
  | some (l, _) => l
  | none => sessions

/-- Result shape of `lookup_dan_murphys` (app.py 76-86). -/
structure LookupResult where
  dm_url : Str := []
  price : Option Nat := none
  image_url : Option Str := none
deriving DecidableEq

/-- Embeds `if not s.get('image_url') and result.get('image_url')` (app.py 274-275). -/
def applyImage (r : LookupResult) (s : Session) : Session :=
  if !optStrTruthy s.image_url && optStrTruthy r.image_url
  then { s with image_url := r.image_url } else s

/-- Embeds `if not s.get('rrp') and result.get('price')` (app.py 276-277). -/
def applyRrp (r : LookupResult) (s : Session) : Session :=
  if !optNatTruthy s.rrp && optNatTruthy r.price
  then { s with rrp := r.price } else s

/-- Embeds `if result.get('dm_url')` (app.py 278-279). -/
def applyDm (r : LookupResult) (s : Session) : Session :=
  if strTruthy r.dm_url then { s with dm_url := some r.dm_url } else s

/-- The merge applied to one eligible record on lookup success: the three
field writes of app.py 274-279 in source order. -/
def applyLookup (s : Session) (r : LookupResult) : Session :=
  applyDm r (applyRrp r (applyImage r s))

/-- A record eligible for enrichment: `whisky` truthy and not all of
`image_url`, `rrp`, `dm_url` already populated (app.py 268-271). -/
def eligible (s : Session) : Bool :=
  optStrTruthy s.whisky
    && !(optStrTruthy s.image_url && optNatTruthy s.rrp && optStrTruthy s.dm_url)

/-- Embeds the `enrich_all` core (app.py 262-284): returns the updated list and the
`(enriched, failed)` counters; `lookup` is the external collaborator. -/
def enrichAll (lookup : Str → Option LookupResult) : List Session → List Session × Nat × Nat
  | [] => ([], 0, 0)
  | s :: rest =>
    let p := enrichAll lookup rest
    if !optStrTruthy s.whisky then (s :: p.1, p.2.1, p.2.2)
    else if optStrTruthy s.image_url && optNatTruthy s.rrp && optStrTruthy s.dm_url then
      (s :: p.1, p.2.1, p.2.2)
    else
      match lookup (s.whisky.getD []) with
      | some r => (applyLookup s r :: p.1, p.2.1 + 1, p.2.2)
      | none => (s :: p.1, p.2.1, p.2.2 + 1)

/-! ### String lemmas for host normalisation -/

theorem dropWhile_dropWhile (p : Char → Bool) (l : Str) :
    (l.dropWhile p).dropWhile p = l.dropWhile p := by
  induction l with
  | nil => rfl
  | cons c t ih =>
    by_cases h : p c = true
    · simpa [List.dropWhile_cons, h] using ih
    · simp [List.dropWhile_cons, h]

theorem head_dropWhile_false (p : Char → Bool) (l : Str) (c : Char) (t : Str)
    (h : l.dropWhile p = c :: t) : p c = false := by
  induction l with
  | nil => simp at h
  | cons a l ih =>
    by_cases ha : p a = true
    · rw [List.dropWhile_cons, if_pos ha] at h
      exact ih h
    · rw [List.dropWhile_cons, if_neg ha] at h
      cases h
      simpa using ha

theorem dropWhile_eq_self_of_head (p : Char → Bool) (l : Str)
    (h : ∀ c t, l = c :: t → p c = false) : l.dropWhile p = l := by
  cases l with
  | nil => rfl
  | cons c t => simp [List.dropWhile_cons, h c t rfl]

theorem rstrip_append (s : Str) : ∃ u, s = rstrip s ++ u := by
  obtain ⟨t, ht⟩ := List.dropWhile_suffix (p := isSpaceB) (l := s.reverse)
  refine ⟨t.reverse, ?_⟩
  have h2 := congrArg List.reverse ht
  simp only [List.reverse_append, List.reverse_reverse] at h2
  exact h2.symm

theorem lstrip_rstrip (m : Str) (hm : ∀ c t, m = c :: t → isSpaceB c = false) :
    lstrip (rstrip m) = rstrip m := by
  apply dropWhile_eq_self_of_head
  intro c t h
  obtain ⟨u, hu⟩ := rstrip_append m
  exact hm c (t ++ u) (by rw [hu, h]; simp)

theorem rstrip_rstrip (m : Str) : rstrip (rstrip m) = rstrip m := by
  unfold rstrip
  rw [List.reverse_reverse, dropWhile_dropWhile]

theorem strip_strip (s : Str) : strip (strip s) = strip s := by
  have h1 : lstrip (rstrip (lstrip s)) = rstrip (lstrip s) :=
    lstrip_rstrip (lstrip s)
      (fun c t hct => head_dropWhile_false isSpaceB s c t (by simpa [lstrip] using hct))
  show rstrip (lstrip (rstrip (lstrip s))) = rstrip (lstrip s)
  rw [h1, rstrip_rstrip]

theorem alias_vals_fixed : ∀ p ∈ HOST_ALIASES, normalise_host (some p.2) = some p.2 := by
  decide

/-- Claim C5: host-name normalisation is idempotent —
`normalise_host (normalise_host x) = normalise_host x` for every input,
including `None`, the empty string, aliased, mixed-case, whitespace-laden
and untracked names. -/
theorem normalise_host_idem (x : Option Str) :
    normalise_host (normalise_host x) = normalise_host x := by
  match x with
  | none => rfl
  | some s =>
    by_cases hs : s = []
    · subst hs; rfl
    · rw [show normalise_host (some s)
          = some ((aliasGet (lower (strip s))).getD (strip s)) by
        simp [normalise_host, hs]]
      cases h : aliasGet (lower (strip s)) with
      | some v =>
        obtain ⟨pr, hpr, hv⟩ := Option.map_eq_some'.mp h
        have hmem := List.mem_of_find?_eq_some hpr
        simpa [hv] using alias_vals_fixed pr hmem
      | none =>
        simp only [Option.getD_none]
        by_cases h2 : strip s = []
        · simp [normalise_host, h2]
        · simp only [normalise_host, h2, if_neg h2, strip_strip, h, Option.getD_none]
          simp

/-! ### Identifier allocation (compute_next_id) -/

theorem mem_of_getLast?_eq {α : Type} (l : List α) (a : α) (h : l.getLast? = some a) :
    a ∈ l := by
  induction l with
  | nil => simp at h
  | cons x rest ih =>
    cases rest with
    | nil =>
      simp only [List.getLast?_singleton, Option.some.injEq] at h
      simp [h]
    | cons y t =>
      rw [List.getLast?_cons_cons] at h
      exact List.mem_cons_of_mem x (ih h)

theorem nextFromLast_invalid (sid : Str) (h : validStr sid = false) :
    nextFromLast sid = "I:I".data := by
  unfold nextFromLast validStr at *
  rcases hp : splitColon sid with _ | ⟨r, _ | ⟨o, _ | ⟨x, rest⟩⟩⟩
  · rfl
  · rfl
  · rw [hp] at h
    have h2 : (romanToInt r != 0 && romanToInt o != 0) = false := h
    have hro : romanToInt r = 0 ∨ romanToInt o = 0 := by
      by_cases hr : romanToInt r = 0
      · exact Or.inl hr
      · by_cases ho : romanToInt o = 0
        · exact Or.inr ho
        · simp [hr, ho] at h2
    exact if_pos hro
  · rfl

theorem roman_round : ∀ r < 13, 1 ≤ r → romanToInt (intToRoman r) = r := by decide

theorem nextFromLast_render : ∀ r < 13, ∀ s < 13, 1 ≤ r → 1 ≤ s →
    nextFromLast (intToRoman r ++ ":".data ++ intToRoman s) =
      (if 7 ≤ s then intToRoman (r + 1) ++ ":I".data
       else intToRoman r ++ ":".data ++ intToRoman (s + 1)) := by decide

/-- Claim C1 (amended): the scan in `compute_next_id` bases the successor
on the *last* record whose id is present and contains the `:` separator;
records with a missing, empty or separator-free id are skipped.  If that
last separator-containing id is malformed (it does not decode to two
non-zero components), the all-invalid fallback `(1,1)` is returned even
when an earlier record has a fully-valid id. -/
theorem computeNextId_scan (sessions : List Session) (t : Session) :
    (isColonTruthy t = false →
      computeNextId (sessions ++ [t]) = computeNextId sessions)
    ∧ (∀ sid, t.id = some sid → isColonTruthy t = true → validStr sid = false →
      computeNextId (sessions ++ [t]) = "I:I".data) := by
  constructor
  · intro h
    unfold computeNextId
    rw [List.filter_append]
    simp [List.filter_cons, h]
  · intro sid hid hct hv
    unfold computeNextId
    rw [List.filter_append]
    have hft : List.filter isColonTruthy [t] = [t] := by simp [List.filter_cons, hct]
    rw [hft, List.getLast?_concat]
    simp only [hid, Option.getD_some]
    exact nextFromLast_invalid sid hv

/-- Claim C1 witness. -/
theorem computeNextId_scan_witness :
    computeNextId ([{ id := some "II:II".data }] ++ [{ host := some "x".data }])
      = computeNextId [{ id := some "II:II".data }]
    ∧ computeNextId ([{ id := some "II:II".data }] ++ [{ id := some "X:Q".data }])
      = "I:I".data :=
  ⟨(computeNextId_scan [{ id := some "II:II".data }] { host := some "x".data }).1 (by decide),
   (computeNextId_scan [{ id := some "II:II".data }] { id := some "X:Q".data }).2
     "X:Q".data rfl (by decide) (by decide)⟩

/-- Claim C1 counterexample: the claim says a malformed id appearing after
a fully-valid one does not change the result, and that the fallback is
used only when no record has a fully-valid id.  Here `"I:Z"` is malformed,
`"I:I"` before it is fully valid, yet appending the malformed record
changes the result from `"I:II"` to the fallback `"I:I"`. -/
theorem computeNextId_malformed_cex :
    validId { id := some "I:I".data } = true
    ∧ validId { id := some "I:Z".data } = false
    ∧ computeNextId [{ id := some "I:I".data }] = "I:II".data
    ∧ computeNextId [{ id := some "I:I".data }, { id := some "I:Z".data }] = "I:I".data
    ∧ computeNextId [{ id := some "I:I".data }, { id := some "I:Z".data }]
        ≠ computeNextId [{ id := some "I:I".data }] := by decide

/-- Claim C7 (amended): for valid `(r, s)`, when the last record of the
scan (the last record whose id is present and contains `:`) carries the
rendered id of `(r, s)`, `compute_next_id` yields `(r, s+1)` for
`s < 7` and `(r+1, 1)` for `s ≥ 7` (round size 7); over an empty
registry, or one in which no record has a fully-valid id, it yields
`(1, 1)`, rendered `"I:I"`. -/
theorem computeNextId_successor (sessions : List Session) :
    (∀ t r s, 1 ≤ r → r ≤ 12 → 1 ≤ s → s ≤ 12 →
      (sessions.filter isColonTruthy).getLast? = some t →
      t.id = some (intToRoman r ++ ":".data ++ intToRoman s) →
      computeNextId sessions =
        (if 7 ≤ s then intToRoman (r + 1) ++ ":I".data
         else intToRoman r ++ ":".data ++ intToRoman (s + 1)))
    ∧ ((∀ t ∈ sessions, validId t = false) → computeNextId sessions = "I:I".data) := by
  constructor
  · intro t r s hr1 hr2 hs1 hs2 hlast hid
    unfold computeNextId
    rw [hlast]
    simp only [hid, Option.getD_some]
    exact nextFromLast_render r (by omega) s (by omega) hr1 hs1
  · intro hall
    unfold computeNextId
    cases hl : (sessions.filter isColonTruthy).getLast? with
    | none => rfl
    | some t =>
      have ht : t ∈ sessions.filter isColonTruthy :=
        mem_of_getLast?_eq (sessions.filter isColonTruthy) t hl
      have ht2 : t ∈ sessions := (List.mem_filter.mp ht).1
      exact nextFromLast_invalid (t.id.getD []) (hall t ht2)

/-- Claim C7 witness. -/
theorem computeNextId_successor_witness :
    computeNextId [{ id := some "II:III".data }] = "II:IV".data
    ∧ computeNextId [{ id := some "V:VII".data }] = "VI:I".data
    ∧ computeNextId [{ id := some "ZZ".data }, { whisky := some "w".data }] = "I:I".data :=
  ⟨((computeNextId_successor [{ id := some "II:III".data }]).1
      { id := some "II:III".data } 2 3 (by decide) (by decide) (by decide) (by decide)
      (by decide) (by decide)).trans (by decide),
   ((computeNextId_successor [{ id := some "V:VII".data }]).1
      { id := some "V:VII".data } 5 7 (by decide) (by decide) (by decide) (by decide)
      (by decide) (by decide)).trans (by decide),
   (computeNextId_successor [{ id := some "ZZ".data }, { whisky := some "w".data }]).2
     (by decide)⟩

/-- Claim C7 counterexample: the registry's *last fully-valid* id is
`(2, 3)` (on the first record), so the claim predicts `"II:IV"`; but a
later record carries the colon-containing malformed id `"IV:Q"`, and
the code returns the fallback `"I:I"` instead. -/
theorem computeNextId_last_valid_cex :
    validId { id := some "II:III".data } = true
    ∧ validId { id := some "IV:Q".data } = false
    ∧ (∀ t ∈ [{ id := some "II:III".data }, { id := some "IV:Q".data }],
        validId t = true → t.id = some "II:III".data)
    ∧ computeNextId [{ id := some "II:III".data }, { id := some "IV:Q".data }] = "I:I".data
    ∧ "I:I".data ≠ "II:IV".data := by decide

/-! ### Registry ordering (add_session) -/

theorem idxFrom_bound (r : Str) :
    ∀ (l : List Str) (i : Nat), idxFrom r l i = 0 ∨ idxFrom r l i < i + l.length := by
  intro l
  induction l with
  | nil => intro i; left; rfl
  | cons x rest ih =>
    intro i
    unfold idxFrom
    by_cases h : x = r
    · rw [if_pos h]; right; simp
    · rw [if_neg h]
      rcases ih (i + 1) with h0 | hlt
      · left; exact h0
      · right; simp only [List.length_cons]; omega

theorem romanToInt_le (r : Str) : romanToInt r ≤ 12 := by
  have hb := idxFrom_bound r ROMAN 1
  have hlen : ROMAN.length = 12 := by decide
  rw [hlen] at hb
  unfold romanToInt
  omega

/-- Whether a stored id contains the `:` separator at all. -/
def hasColonId (s : Session) : Bool := (s.id.getD []).contains ':'

theorem sortKey_fst_le (s : Session) (h : hasColonId s = true) : (sortKey s).1 ≤ 12 := by
  unfold hasColonId at h
  unfold sortKey
  rw [if_pos h]
  exact romanToInt_le _

theorem sortKey_sentinel (s : Session) (h : hasColonId s = false) : sortKey s = (999, 999) := by
  unfold hasColonId at h
  unfold sortKey
  rw [if_neg (by simpa using h)]

/-- Claim C2 (amended): after every add the stored sequence is sorted
ascending by the code's key — `(decode part0, decode part1)` when the id
contains `:`, and the sentinel `(999, 999)` otherwise — so records whose
id is missing, empty or separator-free are placed after all records
whose id contains `:`.  However, a `:`-containing id with an undecodable
component sorts by its partial key (the bad component counts as `0`), so
such a record can precede records with fully-valid ids. -/
theorem addSession_sorted (sessions : List Session) (t : Session) :
    List.Sorted keyLe (addSession sessions t).1
    ∧ List.Pairwise (fun a b => hasColonId b = true → hasColonId a = true)
        (addSession sessions t).1 := by
  have hsort : List.Sorted keyLe (addSession sessions t).1 :=
    List.sorted_insertionSort keyLe _
  refine ⟨hsort, List.Pairwise.imp ?_ hsort⟩
  intro a b hab hcb
  by_contra hca
  have hca2 : hasColonId a = false := by
    revert hca; cases hasColonId a <;> simp
  have h999 : sortKey a = (999, 999) := sortKey_sentinel a hca2
  have hb12 : (sortKey b).1 ≤ 12 := sortKey_fst_le b hcb
  unfold keyLe at hab
  rw [h999] at hab
  simp only [Prod.fst, Prod.snd] at hab
  omega

/-- Claim C2 counterexample: the claim places records whose id does not
decode to two valid components after all valid records.  Adding the
record with malformed id `"I:Z"` (key `(1, 0)`) to a registry holding
the valid `"I:I"` (key `(1, 1)`) stores the malformed record *first*. -/
theorem addSession_order_cex :
    ((addSession [{ id := some "I:I".data }] { id := some "I:Z".data }).1.map Session.id)
      = [some "I:Z".data, some "I:I".data]
    ∧ validId { id := some "I:Z".data } = false
    ∧ validId { id := some "I:I".data } = true := by decide

/-- Claim C3 (amended): the registry performs no id-uniqueness check on
insert: adding a record whose explicit non-empty id equals an existing
record's id yields a registry containing at least two records with that
id. -/
theorem addSession_duplicates (sessions : List Session) (t : Session) (sid : Str)
    (hid : t.id = some sid) (hne : sid ≠ [])
    (hex : ∃ u ∈ sessions, u.id = some sid) :
    2 ≤ List.countP (fun s => decide (s.id = some sid)) (addSession sessions t).1 := by
  have hpid : (prepSession sessions t).id = some sid := by
    unfold prepSession
    rw [hid]
    cases sid with
    | nil => exact absurd rfl hne
    | cons c cs => rfl
  unfold addSession
  rw [(List.perm_insertionSort keyLe
        (sessions ++ [prepSession sessions t])).countP_eq
      (fun s => decide (s.id = some sid))]
  rw [List.countP_append]
  have h1 : List.countP (fun s => decide (s.id = some sid)) [prepSession sessions t] = 1 := by
    simp [List.countP_cons, hpid]
  obtain ⟨u, hu, huid⟩ := hex
  have h2 : 0 < List.countP (fun s => decide (s.id = some sid)) sessions :=
    List.countP_pos_iff.mpr ⟨u, hu, by simp [huid]⟩
  omega

/-- Claim C3 witness. -/
theorem addSession_duplicates_witness :
    2 ≤ List.countP (fun s => decide (s.id = some "I:I".data))
        (addSession [{ id := some "I:I".data }]
          { id := some "I:I".data, host := some "b".data }).1 :=
  addSession_duplicates [{ id := some "I:I".data }]
    { id := some "I:I".data, host := some "b".data } "I:I".data rfl (by decide)
    ⟨{ id := some "I:I".data }, by simp, rfl⟩

/-- Claim C3 counterexample: adding a record whose explicit id `"I:I"`
(a valid id) equals an existing record's id produces a registry holding
two records with that id, contradicting enforced uniqueness. -/
theorem addSession_dup_cex :
    List.countP (fun s => decide (s.id = some "I:I".data))
      (addSession [{ id := some "I:I".data }]
        { id := some "I:I".data, host := some "b".data }).1 = 2
    ∧ validId { id := some "I:I".data } = true := by decide

/-! ### Enrichment merge (enrich_all) -/

theorem applyImage_rrp (r : LookupResult) (s : Session) : (applyImage r s).rrp = s.rrp := by
  unfold applyImage; split <;> rfl

theorem applyImage_dm (r : LookupResult) (s : Session) :
    (applyImage r s).dm_url = s.dm_url := by
  unfold applyImage; split <;> rfl

theorem applyRrp_image (r : LookupResult) (s : Session) :
    (applyRrp r s).image_url = s.image_url := by
  unfold applyRrp; split <;> rfl

theorem applyRrp_dm (r : LookupResult) (s : Session) : (applyRrp r s).dm_url = s.dm_url := by
  unfold applyRrp; split <;> rfl

theorem applyDm_image (r : LookupResult) (s : Session) :
    (applyDm r s).image_url = s.image_url := by
  unfold applyDm; split <;> rfl

theorem applyDm_rrp (r : LookupResult) (s : Session) : (applyDm r s).rrp = s.rrp := by
  unfold applyDm; split <;> rfl

theorem applyImage_keep (r : LookupResult) (s : Session)
    (h : optStrTruthy s.image_url = true) : (applyImage r s).image_url = s.image_url := by
  unfold applyImage
  rw [if_neg (by simp [h])]

theorem applyImage_set (r : LookupResult) (s : Session)
    (h : optStrTruthy s.image_url = false) (h2 : optStrTruthy r.image_url = true) :
    (applyImage r s).image_url = r.image_url := by
  unfold applyImage
  rw [if_pos (by simp [h, h2])]

theorem applyRrp_keep (r : LookupResult) (s : Session)
    (h : optNatTruthy s.rrp = true) : (applyRrp r s).rrp = s.rrp := by
  unfold applyRrp
  rw [if_neg (by simp [h])]

theorem applyRrp_set (r : LookupResult) (s : Session)
    (h : optNatTruthy s.rrp = false) (h2 : optNatTruthy r.price = true) :
    (applyRrp r s).rrp = r.price := by
  unfold applyRrp
  rw [if_pos (by simp [h, h2])]

theorem applyDm_set (r : LookupResult) (s : Session) (h : strTruthy r.dm_url = true) :
    (applyDm r s).dm_url = some r.dm_url := by
  unfold applyDm
  rw [if_pos h]

/-- Claim C4: the merge applied on lookup success is field-specific and
asymmetric — `image_url` and `rrp` are written only when the record's
field is currently empty (a pre-existing value survives any lookup
value), while `dm_url` is overwritten with the lookup's value whenever
that value is non-empty, regardless of the record's prior `dm_url`. -/
theorem applyLookup_policy (s : Session) (r : LookupResult) :
    (optStrTruthy s.image_url = true → (applyLookup s r).image_url = s.image_url)
    ∧ (optNatTruthy s.rrp = true → (applyLookup s r).rrp = s.rrp)
    ∧ (optStrTruthy s.image_url = false → optStrTruthy r.image_url = true →
        (applyLookup s r).image_url = r.image_url)
    ∧ (optNatTruthy s.rrp = false → optNatTruthy r.price = true →
        (applyLookup s r).rrp = r.price)
    ∧ (strTruthy r.dm_url = true → (applyLookup s r).dm_url = some r.dm_url) := by
  unfold applyLookup
  refine ⟨?_, ?_, ?_, ?_, ?_⟩
  · intro h
    rw [applyDm_image, applyRrp_image, applyImage_keep r s h]
  · intro h
    rw [applyDm_rrp, applyRrp_keep r _ (by rw [applyImage_rrp]; exact h), applyImage_rrp]
  · intro h h2
    rw [applyDm_image, applyRrp_image, applyImage_set r s h h2]
  · intro h h2
    rw [applyDm_rrp, applyRrp_set r _ (by rw [applyImage_rrp]; exact h) h2]
  · intro h
    rw [applyDm_set _ _ h]

/-- Claim C4 witness. -/
theorem applyLookup_policy_witness :
    (applyLookup { image_url := some "X".data, rrp := some 5, dm_url := some "old".data }
        { dm_url := "new".data, price := some 9, image_url := some "Y".data }).image_url
      = some "X".data
    ∧ (applyLookup { image_url := some "X".data, rrp := some 5, dm_url := some "old".data }
        { dm_url := "new".data, price := some 9, image_url := some "Y".data }).rrp = some 5
    ∧ (applyLookup { image_url := some "X".data, rrp := some 5, dm_url := some "old".data }
        { dm_url := "new".data, price := some 9, image_url := some "Y".data }).dm_url
      = some "new".data
    ∧ (applyLookup { whisky := some "w".data }
        { dm_url := "new".data, price := some 9, image_url := some "Y".data }).image_url
      = some "Y".data
    ∧ (applyLookup { whisky := some "w".data }
        { dm_url := "new".data, price := some 9, image_url := some "Y".data }).rrp
      = some 9 :=
  ⟨(applyLookup_policy { image_url := some "X".data, rrp := some 5, dm_url := some "old".data }
      { dm_url := "new".data, price := some 9, image_url := some "Y".data }).1 (by decide),
   (applyLookup_policy { image_url := some "X".data, rrp := some 5, dm_url := some "old".data }
      { dm_url := "new".data, price := some 9, image_url := some "Y".data }).2.1 (by decide),
   (applyLookup_policy { image_url := some "X".data, rrp := some 5, dm_url := some "old".data }
      { dm_url := "new".data, price := some 9, image_url := some "Y".data }).2.2.2.2 (by decide),
   (applyLookup_policy { whisky := some "w".data }
      { dm_url := "new".data, price := some 9, image_url := some "Y".data }).2.2.1
     (by decide) (by decide),
   (applyLookup_policy { whisky := some "w".data }
      { dm_url := "new".data, price := some 9, image_url := some "Y".data }).2.2.2.1
     (by decide) (by decide)⟩

/-- Claim C9: after batch reconciliation, `enriched + failed` equals the
number of eligible records — records whose `whisky` is non-empty and for
which at least one of `image_url`, `rrp`, `dm_url` is empty; skipped
records contribute to neither counter. -/
theorem enrichAll_counts (lookup : Str → Option LookupResult) (sessions : List Session) :
    (enrichAll lookup sessions).2.1 + (enrichAll lookup sessions).2.2 =
      List.countP eligible sessions := by
  induction sessions with
  | nil => rfl
  | cons s rest ih =>
    rw [List.countP_cons]
    by_cases hw : optStrTruthy s.whisky = true
    · by_cases hf : (optStrTruthy s.image_url && optNatTruthy s.rrp
          && optStrTruthy s.dm_url) = true
      · have he : eligible s = false := by simp [eligible, hw, hf]
        have hstep : (enrichAll lookup (s :: rest)).2 = (enrichAll lookup rest).2 := by
          simp [enrichAll, hw, hf]
        rw [hstep, he]
        simpa using ih
      · have hf2 : (optStrTruthy s.image_url && optNatTruthy s.rrp
            && optStrTruthy s.dm_url) = false := by
          revert hf
          cases optStrTruthy s.image_url && optNatTruthy s.rrp && optStrTruthy s.dm_url <;>
            simp
        have he : eligible s = true := by simp [eligible, hw, hf2]
        cases hl : lookup (s.whisky.getD []) with
        | some r0 =>
          have hstep : (enrichAll lookup (s :: rest)).2
              = ((enrichAll lookup rest).2.1 + 1, (enrichAll lookup rest).2.2) := by
            simp [enrichAll, hw, hf2, hl]
          rw [hstep, he]
          simp
          omega
        | none =>
          have hstep : (enrichAll lookup (s :: rest)).2
              = ((enrichAll lookup rest).2.1, (enrichAll lookup rest).2.2 + 1) := by
            simp [enrichAll, hw, hf2, hl]
          rw [hstep, he]
          simp
          omega
    · have hw2 : optStrTruthy s.whisky = false := by
        revert hw
        cases optStrTruthy s.whisky <;> simp
      have he : eligible s = false := by simp [eligible, hw2]
      have hstep : (enrichAll lookup (s :: rest)).2 = (enrichAll lookup rest).2 := by
        simp [enrichAll, hw2]
      rw [hstep, he]
      simpa using ih

/-! ### Update semantics (update_session) -/

theorem updateSession_cons_no_match (s : Session) (rest : List Session) (sid : Str)
    (p : Patch) (h : s.id ≠ some sid) :
    updateSession (s :: rest) sid p
      = (updateSession rest sid p).map (fun pr => (s :: pr.1, pr.2)) := by
  simp only [updateSession, if_neg h]
  cases hr : updateSession rest sid p with
  | none => rfl
  | some pr =>
    obtain ⟨a, b⟩ := pr
    rfl

/-- Claim C8: update fails (the 404 path) exactly when no stored record's
id is string-equal to the given id, and in that case the stored list is
left unchanged — nothing is modified or persisted. -/
theorem updateSession_notFound (sessions : List Session) (sid : Str) (p : Patch) :
    (updateSession sessions sid p = none ↔ ∀ s ∈ sessions, s.id ≠ some sid)
    ∧ ((∀ s ∈ sessions, s.id ≠ some sid) → updateRoute sessions sid p = sessions) := by
  have hiff : updateSession sessions sid p = none ↔ ∀ s ∈ sessions, s.id ≠ some sid := by
    induction sessions with
    | nil => simp [updateSession]
    | cons s rest ih =>
      by_cases h : s.id = some sid
      · simp [updateSession, h]
      · rw [updateSession_cons_no_match s rest sid p h, Option.map_eq_none', ih]
        constructor
        · intro hall u hm
          rcases List.mem_cons.mp hm with rfl | hm2
          · exact h
          · exact hall u hm2
        · intro hall u hm
          exact hall u (List.mem_cons_of_mem s hm)
  refine ⟨hiff, fun hall => ?_⟩
  unfold updateRoute
  rw [hiff.mpr hall]

/-- Claim C8 witness. -/
theorem updateSession_notFound_witness :
    updateRoute [{ id := some "I:I".data }] "II:I".data {} = [{ id := some "I:I".data }] :=
  (updateSession_notFound [{ id := some "I:I".data }] "II:I".data {}).2 (by decide)

/-- Claim C10: when several stored records share the same rendered id,
update patches only the first such record in storage order; every record
before it and after it — including the later duplicates — is returned
unchanged. -/
theorem updateSession_first_only (pre post : List Session) (s : Session) (sid : Str)
    (p : Patch) (hpre : ∀ u ∈ pre, u.id ≠ some sid) (hs : s.id = some sid) :
    updateSession (pre ++ s :: post) sid p
      = some (pre ++ applyPatch p s :: post, applyPatch p s) := by
  induction pre with
  | nil => simp [updateSession, hs]
  | cons u rest ih =>
    have hu : u.id ≠ some sid := hpre u (List.mem_cons_self u rest)
    have ih2 := ih (fun v hv => hpre v (List.mem_cons_of_mem u hv))
    rw [List.cons_append, updateSession_cons_no_match u (rest ++ s :: post) sid p hu, ih2]
    rfl

/-- Claim C10 witness: two records share id `"I:I"`; only the first is
patched, the later duplicate is returned unchanged. -/
theorem updateSession_first_only_witness :
    updateSession
        ([] ++ { id := some "I:I".data, host := some "a".data }
          :: [{ id := some "I:I".data, host := some "b".data }])
        "I:I".data { whisky := some (some "W".data) }
      = some
          ([] ++ applyPatch { whisky := some (some "W".data) }
              { id := some "I:I".data, host := some "a".data }
            :: [{ id := some "I:I".data, host := some "b".data }],
           applyPatch { whisky := some (some "W".data) }
             { id := some "I:I".data, host := some "a".data }) :=
  updateSession_first_only [] [{ id := some "I:I".data, host := some "b".data }]
    { id := some "I:I".data, host := some "a".data } "I:I".data
    { whisky := some (some "W".data) } (by decide) rfl

/-! ### Search aggregation (search_whisky) -/

/-- One reference-library record (app.py 223-235): fields read with
`entry.get(..., '')`. -/
structure LibraryEntry where
  whisky : Str := []
  region : Str := []
  type : Str := []
deriving DecidableEq

/-- One search result row (app.py 214-220 and 228-235). -/
structure SearchResult where
  whisky : Str
  region : Str
  type : Option Str
  rrp : Option Nat
  image_url : Option Str
  source : Str
deriving DecidableEq

/-- The `local`-sourced result built from a session (app.py 214-220). -/
def emitLocal (s : Session) : SearchResult :=
  { whisky := s.whisky.getD [], region := s.region.getD [], type := none,
    rrp := s.rrp, image_url := s.image_url, source := "local".data }

/-- The `library`-sourced result built from a library entry (app.py 228-235). -/
def emitLib (e : LibraryEntry) : SearchResult :=
  { whisky := e.whisky, region := e.region, type := some e.type,
    rrp := none, image_url := none, source := "library".data }

/-- Prefix test for the substring check. -/
def prefB : Str → Str → Bool
  | [], _ => true
  | _ :: _, [] => false
  | a :: as, b :: bs => a == b && prefB as bs

/-- Python substring membership `needle in hay`. -/
def subStr (needle : Str) : Str → Bool
  | [] => prefB needle []
  | c :: rest => prefB needle (c :: rest) || subStr needle rest

/-- One deduplicating pass of `search_whisky` (the loops at app.py
210-220 and 224-235): emit each matching element whose key is unseen,
threading the `seen` set; returns the final seen set and the emitted
results in iteration order. -/
def dedupPass {α : Type} (test : α → Bool) (key : α → Str) (emit : α → SearchResult) :
    List α → List Str → List Str × List SearchResult
  | [], seen => (seen, [])
  | x :: rest, seen =>
    if test x && !(seen.contains (key x)) then
      ((dedupPass test key emit rest (key x :: seen)).1,
       emit x :: (dedupPass test key emit rest (key x :: seen)).2)
    else dedupPass test key emit rest seen

/-- Embeds `ql in whisky.lower()` for a session (app.py 212). -/
def localTest (ql : Str) (s : Session) : Bool := subStr ql (lower (s.whisky.getD []))

/-- Dedup key for a session: the fully-lowercased whisky name. -/
def localKey (s : Session) : Str := lower (s.whisky.getD [])

/-- Embeds `ql in whisky.lower()` for a library entry (app.py 226). -/
def libTest (ql : Str) (e : LibraryEntry) : Bool := subStr ql (lower e.whisky)

/-- Dedup key for a library entry. -/
def libKey (e : LibraryEntry) : Str := lower e.whisky

/-- Embeds `search_whisky` (app.py 197-237): guard on the stripped query length,
local pass, library pass threading the same seen set, truncation to 10. -/
def searchWhisky (q : Str) (sessions : List Session) (library : List LibraryEntry) :
    List SearchResult :=
  if (strip q).length < 2 then []
  else
    ((dedupPass (localTest (lower (strip q))) localKey emitLocal sessions []).2 ++
     (dedupPass (libTest (lower (strip q))) libKey emitLib library
       (dedupPass (localTest (lower (strip q))) localKey emitLocal sessions []).1).2).take 10

/-- The dedup key of an emitted result row. -/
def rkey (r : SearchResult) : Str := lower r.whisky

theorem contains_mem_iff (l : List Str) (a : Str) : l.contains a = true ↔ a ∈ l := by
  simp

theorem dedupPass_cons {α : Type} (test : α → Bool) (key : α → Str)
    (emit : α → SearchResult) (x : α) (rest : List α) (seen : List Str) :
    dedupPass test key emit (x :: rest) seen =
      if test x && !(seen.contains (key x)) then
        ((dedupPass test key emit rest (key x :: seen)).1,
         emit x :: (dedupPass test key emit rest (key x :: seen)).2)
      else dedupPass test key emit rest seen := rfl

theorem dedupPass_seen_mono {α : Type} (test : α → Bool) (key : α → Str)
    (emit : α → SearchResult) :
    ∀ (l : List α) (seen : List Str) (k : Str), k ∈ seen →
      k ∈ (dedupPass test key emit l seen).1 := by
  intro l
  induction l with
  | nil => intro seen k hk; exact hk
  | cons x rest ih =>
    intro seen k hk
    rw [dedupPass_cons]
    by_cases hc : (test x && !(seen.contains (key x))) = true
    · rw [if_pos hc]
      exact ih (key x :: seen) k (List.mem_cons_of_mem _ hk)
    · rw [if_neg hc]
      exact ih seen k hk

theorem dedupPass_results {α : Type} (test : α → Bool) (key : α → Str)
    (emit : α → SearchResult) :
    ∀ (l : List α) (seen : List Str) (r : SearchResult),
      r ∈ (dedupPass test key emit l seen).2 → ∃ x ∈ l, test x = true ∧ r = emit x := by
  intro l
  induction l with
  | nil => intro seen r hr; exact absurd hr (List.not_mem_nil r)
  | cons x rest ih =>
    intro seen r hr
    rw [dedupPass_cons] at hr
    by_cases hc : (test x && !(seen.contains (key x))) = true
    · rw [if_pos hc] at hr
      rcases List.mem_cons.mp hr with rfl | hr2
      · have hc2 : test x = true ∧ !(seen.contains (key x)) = true := by simpa using hc
        exact ⟨x, List.mem_cons_self x rest, hc2.1, rfl⟩
      · obtain ⟨y, hy, hty, hry⟩ := ih (key x :: seen) r hr2
        exact ⟨y, List.mem_cons_of_mem x hy, hty, hry⟩
    · rw [if_neg hc] at hr
      obtain ⟨y, hy, hty, hry⟩ := ih seen r hr
      exact ⟨y, List.mem_cons_of_mem x hy, hty, hry⟩

theorem dedupPass_keys_in_seen {α : Type} (test : α → Bool) (key : α → Str)
    (emit : α → SearchResult) (hk : ∀ x, rkey (emit x) = key x) :
    ∀ (l : List α) (seen : List Str) (r : SearchResult),
      r ∈ (dedupPass test key emit l seen).2 → rkey r ∈ (dedupPass test key emit l seen).1 := by
  intro l
  induction l with
  | nil => intro seen r hr; exact absurd hr (List.not_mem_nil r)
  | cons x rest ih =>
    intro seen r hr
    rw [dedupPass_cons] at hr ⊢
    by_cases hc : (test x && !(seen.contains (key x))) = true
    · rw [if_pos hc] at hr ⊢
      rcases List.mem_cons.mp hr with rfl | hr2
      · rw [hk x]
        exact dedupPass_seen_mono test key emit rest (key x :: seen) (key x)
          (List.mem_cons_self _ _)
      · exact ih (key x :: seen) r hr2
    · rw [if_neg hc] at hr ⊢
      exact ih seen r hr

theorem dedupPass_new_keys {α : Type} (test : α → Bool) (key : α → Str)
    (emit : α → SearchResult) (hk : ∀ x, rkey (emit x) = key x) :
    ∀ (l : List α) (seen : List Str) (r : SearchResult),
      r ∈ (dedupPass test key emit l seen).2 → rkey r ∉ seen := by
  intro l
  induction l with
  | nil => intro seen r hr; exact absurd hr (List.not_mem_nil r)
  | cons x rest ih =>
    intro seen r hr
    rw [dedupPass_cons] at hr
    by_cases hc : (test x && !(seen.contains (key x))) = true
    · rw [if_pos hc] at hr
      have hnotin : key x ∉ seen := by
        have h2 : !(seen.contains (key x)) = true := by
          have hc2 : test x = true ∧ !(seen.contains (key x)) = true := by simpa using hc
          exact hc2.2
        intro hmem
        rw [(contains_mem_iff seen (key x)).mpr hmem] at h2
        exact absurd h2 (by decide)
      rcases List.mem_cons.mp hr with rfl | hr2
      · rw [hk x]; exact hnotin
      · intro hmem
        exact ih (key x :: seen) r hr2 (List.mem_cons_of_mem _ hmem)
    · rw [if_neg hc] at hr
      exact ih seen r hr

theorem dedupPass_nodup {α : Type} (test : α → Bool) (key : α → Str)
    (emit : α → SearchResult) (hk : ∀ x, rkey (emit x) = key x) :
    ∀ (l : List α) (seen : List Str),
      ((dedupPass test key emit l seen).2.map rkey).Nodup := by
  intro l
  induction l with
  | nil => intro seen; exact List.nodup_nil
  | cons x rest ih =>
    intro seen
    rw [dedupPass_cons]
    by_cases hc : (test x && !(seen.contains (key x))) = true
    · rw [if_pos hc]
      simp only [List.map_cons]
      refine List.nodup_cons.mpr ⟨?_, ih (key x :: seen)⟩
      intro hmem
      obtain ⟨r, hr, hrk⟩ := List.mem_map.mp hmem
      have := dedupPass_new_keys test key emit hk rest (key x :: seen) r hr
      rw [hrk, hk x] at this
      exact this (List.mem_cons_self _ _)
    · rw [if_neg hc]
      exact ih seen

theorem dedupPass_cover {α : Type} (test : α → Bool) (key : α → Str)
    (emit : α → SearchResult) :
    ∀ (l : List α) (seen : List Str) (x : α), x ∈ l → test x = true →
      key x ∈ (dedupPass test key emit l seen).1 := by
  intro l
  induction l with
  | nil => intro seen x hx; exact absurd hx (List.not_mem_nil x)
  | cons y rest ih =>
    intro seen x hx htx
    rw [dedupPass_cons]
    rcases List.mem_cons.mp hx with rfl | hx2
    · by_cases hc : (test x && !(seen.contains (key x))) = true
      · rw [if_pos hc]
        exact dedupPass_seen_mono test key emit rest (key x :: seen) (key x)
          (List.mem_cons_self _ _)
      · rw [if_neg hc]
        have hcontains : seen.contains (key x) = true := by
          by_contra hcf
          have hcf2 : seen.contains (key x) = false := by
            revert hcf
            cases seen.contains (key x) <;> simp
          rw [htx, hcf2] at hc
          exact hc rfl
        exact dedupPass_seen_mono test key emit rest seen (key x)
          ((contains_mem_iff seen (key x)).mp hcontains)
    · by_cases hc : (test y && !(seen.contains (key y))) = true
      · rw [if_pos hc]
        exact ih (key y :: seen) x hx2 htx
      · rw [if_neg hc]
        exact ih seen x hx2 htx
theorem countP_eq_key_le_one (l : List Str) (h : l.Nodup) (a : Str) :
    List.countP (fun k => decide (k = a)) l ≤ 1 := by
  induction l with
  | nil => simp
  | cons x rest ih =>
    rw [List.countP_cons]
    rcases List.nodup_cons.mp h with ⟨hx, hrest⟩
    by_cases hxa : x = a
    · subst hxa
      have hz : List.countP (fun k => decide (k = x)) rest = 0 := by
        rw [List.countP_eq_zero]
        intro b hb
        simp only [decide_eq_true_eq]
        intro hba
        exact hx (hba ▸ hb)
      simp [hz]
    · simp only [decide_eq_true_eq]
      rw [if_neg hxa]
      have := ih hrest
      omega

theorem dedup_two_pass {α β : Type} (testA : α → Bool) (keyA : α → Str)
    (emitA : α → SearchResult) (testB : β → Bool) (keyB : β → Str)
    (emitB : β → SearchResult)
    (hkA : ∀ x, rkey (emitA x) = keyA x) (hkB : ∀ y, rkey (emitB y) = keyB y)
    (la : List α) (lb : List β) (x0 : α) (hx0 : x0 ∈ la) (ht0 : testA x0 = true) (n : Nat) :
    List.countP (fun r => decide (rkey r = keyA x0))
      (((dedupPass testA keyA emitA la []).2
        ++ (dedupPass testB keyB emitB lb (dedupPass testA keyA emitA la []).1).2).take n) ≤ 1
    ∧ ∀ r ∈ ((dedupPass testA keyA emitA la []).2
        ++ (dedupPass testB keyB emitB lb (dedupPass testA keyA emitA la []).1).2).take n,
        rkey r = keyA x0 → ∃ y ∈ la, testA y = true ∧ r = emitA y := by
  set pa := dedupPass testA keyA emitA la [] with hpa
  set pb := dedupPass testB keyB emitB lb pa.1 with hpb
  have hnodupA : (pa.2.map rkey).Nodup := by
    rw [hpa]
    exact dedupPass_nodup testA keyA emitA hkA la []
  have hκ : keyA x0 ∈ pa.1 := by
    rw [hpa]
    exact dedupPass_cover testA keyA emitA la [] x0 hx0 ht0
  have hlibnew : ∀ r ∈ pb.2, rkey r ∉ pa.1 := by
    intro r hr
    rw [hpb] at hr
    exact dedupPass_new_keys testB keyB emitB hkB lb pa.1 r hr
  have hlibne : ∀ r ∈ pb.2, rkey r ≠ keyA x0 := fun r hr heq => hlibnew r hr (heq ▸ hκ)
  have hcount_all : List.countP (fun r => decide (rkey r = keyA x0)) (pa.2 ++ pb.2) ≤ 1 := by
    rw [List.countP_append]
    have c1 : List.countP (fun r => decide (rkey r = keyA x0)) pa.2 ≤ 1 := by
      have hc := countP_eq_key_le_one (pa.2.map rkey) hnodupA (keyA x0)
      rw [List.countP_map] at hc
      simpa [Function.comp] using hc
    have c2 : List.countP (fun r => decide (rkey r = keyA x0)) pb.2 = 0 := by
      rw [List.countP_eq_zero]
      intro r hr
      simp only [decide_eq_true_eq]
      exact hlibne r hr
    omega
  constructor
  · exact le_trans
      (List.Sublist.countP_le (fun r => decide (rkey r = keyA x0))
        (List.take_sublist n (pa.2 ++ pb.2)))
      hcount_all
  · intro r hr hrk
    have hr2 : r ∈ pa.2 ++ pb.2 := List.mem_of_mem_take hr
    rcases List.mem_append.mp hr2 with hra | hrb
    · rw [hpa] at hra
      exact dedupPass_results testA keyA emitA la [] r hra
    · exact absurd hrk (hlibne r hrb)

/-- Claim C6 (amended): for a query matching the same whisky name
(case-insensitively) in both the local history and the library, at most
one result with that (fully-lowercased) name is returned, and any
returned result with that name is sourced `"local"` — the local pass
precedes the library pass and the seen-set key is the lowercased name.
"Exactly one" does not hold: the result can be absent entirely, because
the combined list is truncated to 10 entries (and a sub-2-character
query returns nothing). -/
theorem searchWhisky_dedup (q : Str) (sessions : List Session) (library : List LibraryEntry)
    (s0 : Session) (e0 : LibraryEntry) (hs0 : s0 ∈ sessions) (he0 : e0 ∈ library)
    (hkey : libKey e0 = localKey s0)
    (hm : localTest (lower (strip q)) s0 = true) :
    List.countP (fun r => decide (rkey r = localKey s0)) (searchWhisky q sessions library) ≤ 1
    ∧ ∀ r ∈ searchWhisky q sessions library, rkey r = localKey s0 →
        r.source = "local".data := by
  by_cases hg : (strip q).length < 2
  · constructor
    · unfold searchWhisky
      rw [if_pos hg]
      simp
    · intro r hr
      unfold searchWhisky at hr
      rw [if_pos hg] at hr
      exact absurd hr (List.not_mem_nil r)
  · have h := dedup_two_pass (localTest (lower (strip q))) localKey emitLocal
      (libTest (lower (strip q))) libKey emitLib (fun x => rfl) (fun y => rfl)
      sessions library s0 hs0 hm 10
    unfold searchWhisky
    simp only [if_neg hg]
    refine ⟨h.1, ?_⟩
    intro r hr hrk
    obtain ⟨y, hy, hty, hre⟩ := h.2 r hr hrk
    rw [hre]
    rfl

/-- Claim C6 witness. -/
theorem searchWhisky_dedup_witness :
    List.countP
      (fun r => decide (rkey r = localKey { whisky := some "Talisker 10".data }))
      (searchWhisky "tali".data [{ whisky := some "Talisker 10".data }]
        [{ whisky := "TALISKER 10".data }]) ≤ 1 :=
  (searchWhisky_dedup "tali".data [{ whisky := some "Talisker 10".data }]
    [{ whisky := "TALISKER 10".data }] { whisky := some "Talisker 10".data }
    { whisky := "TALISKER 10".data } (by decide) (by decide) (by decide) (by decide)).1

/-- Sessions for the C6 counterexample: eleven local matches for "ab". -/
def cexSessions : List Session :=
  [{ whisky := some "ab0".data }, { whisky := some "ab1".data }, { whisky := some "ab2".data },
   { whisky := some "ab3".data }, { whisky := some "ab4".data }, { whisky := some "ab5".data },
   { whisky := some "ab6".data }, { whisky := some "ab7".data }, { whisky := some "ab8".data },
   { whisky := some "ab9".data }, { whisky := some "abc".data }]

/-- Library for the C6 counterexample. -/
def cexLibrary : List LibraryEntry := [{ whisky := "ABC".data }]

/-- Claim C6 counterexample: the name "abc" matches the query "ab" in
both the local history and the library, yet *zero* — not exactly one —
results with that name are returned, because ten earlier local matches
fill the 10-result truncation. -/
theorem searchWhisky_trunc_cex :
    ({ whisky := some "abc".data } : Session) ∈ cexSessions
    ∧ localTest (lower (strip "ab".data)) { whisky := some "abc".data } = true
    ∧ ({ whisky := "ABC".data } : LibraryEntry) ∈ cexLibrary
    ∧ libKey { whisky := "ABC".data } = localKey { whisky := some "abc".data }
    ∧ List.countP (fun r => decide (rkey r = localKey { whisky := some "abc".data }))
        (searchWhisky "ab".data cexSessions cexLibrary) = 0 := by decide
